import Mathlib

/-!
# Verification of the GeneRx prescription-entry form controller

A shallow embedding of `src/static/js/app.js` (the autocomplete / tag-collection
interaction engine): suggestion fetching, the Korean-name cache, inline herb
tags, bulk paste import, the prescription registry (add / remove / renumber),
and form submission.  Network calls are modelled by passing their outcomes in
explicitly; DOM state (rendered tags, prescription cards) is modelled by the
lists of keys the code itself maintains.
-/

namespace GeneRx

/-! ## Basic data -/

/-- A toast notification category, from `showToast(message, type, duration)`. -/
inductive ToastType where
  | error
  | warning
  | success
  | info
deriving DecidableEq, Repr

/-- A toast notification: `showToast` call with its message and category. -/
structure Toast where
  message : String
  type : ToastType
deriving DecidableEq, Repr

/-- A suggestion returned by `/api/diseases` (plain string) or `/api/herbs`
(`{ english, korean }` record), as distinguished dynamically by
`showSuggestionsWithKeyboard` via `typeof s === 'object'`. -/
inductive Suggestion where
  | plain (value : String)
  | herb (english : String) (korean : String)
deriving DecidableEq, Repr

/-- The english name the herb-input filter extracts from a suggestion:
`typeof s === 'object' ? s.english : s`. -/
def suggestionEnglish : Suggestion → String
  | .plain v => v
  | .herb e _ => e

/-! ## fetchSuggestions (app.js lines 277-285)

The transport is modelled as an `Except`: `.error` covers both a network
failure of `fetch` and a JSON-parse failure of `response.json()` (either
rejection lands in the same `catch`). -/

/-- `fetchSuggestions`: returns the parsed suggestion list, or `[]` when the
fetch or the JSON parse fails (the error is only logged). -/
def fetchSuggestions (outcome : Except Unit (List Suggestion)) : List Suggestion :=
  match outcome with
  | .ok suggestions => suggestions
  | .error _ => []

/-! ## Herb-input suggestion filtering (app.js lines 182-204)

Inside `setupHerbAutocomplete`'s input handler, fetched suggestions are
filtered against the herbs already selected for this prescription before being
rendered: `suggestions.filter(s => !selectedHerbs.includes(englishName))`. -/

/-- The already-selected filter applied to herb suggestions before rendering. -/
def filterSelectedHerbs (selectedHerbs : List String) (suggestions : List Suggestion) :
    List Suggestion :=
  suggestions.filter (fun s => !(selectedHerbs.contains (suggestionEnglish s)))

/-! ## Inline tag management (app.js lines 365-420)

A prescription's tag state: `state.prescriptions[index]` (the ordered herb-name
list) together with the rendered `.herb-tag` elements, identified by their
`data-herb` attribute in document order (each new tag is inserted directly
before the input, i.e. after all existing tags). -/

structure TagState where
  herbs : List String
  tags : List String
deriving DecidableEq, Repr

/-- `addHerbTagInline` (state part): no-op when the name is already in the
prescription; otherwise pushes the name and renders a tag before the input. -/
def addHerbTagInline (s : TagState) (herbName : String) : TagState :=
  if s.herbs.contains herbName then s
  else { herbs := s.herbs ++ [herbName], tags := s.tags ++ [herbName] }

/-- `removeHerbTagInline` (state part): filters the name out of the herb list
and removes the rendered tag with that `data-herb` (the first match found). -/
def removeHerbTagInline (s : TagState) (herbName : String) : TagState :=
  { herbs := s.herbs.filter (fun h => h ≠ herbName),
    tags := s.tags.erase herbName }

/-- A sequence of single-herb adds, as fired by suggestion selection. -/
def runAdds (s : TagState) (names : List String) : TagState :=
  names.foldl addHerbTagInline s

/-- The Backspace handler on an empty text input (app.js lines 207-215):
when the prescription has herbs, removes the last one (`herbs[herbs.length-1]`)
via `removeHerbTagInline`; otherwise does nothing. -/
def backspaceOnEmptyInput (s : TagState) : TagState :=
  if s.herbs.length > 0 then
    removeHerbTagInline s (s.herbs.getLastD "")
  else s

/-! ## The Korean-name cache (app.js lines 344-359, 474-489, 193-229)

`herbKoreanCache` is a plain JS object; we model it as an association list
where assignment prepends (lookup finds the newest binding first).  A JS
string-or-undefined field is an `Option String`; JS truthiness of a string
(`if (korean)`) is "`some` of a non-empty string". -/

abbrev Cache := List (String × String)

/-- `herbKoreanCache[key]` (`undefined` when absent). -/
def cacheGet (cache : Cache) (key : String) : Option String :=
  (cache.find? (fun p => p.1 == key)).map (fun p => p.2)

/-- `herbKoreanCache[key] = value`. -/
def cacheSet (cache : Cache) (key value : String) : Cache :=
  (key, value) :: cache

/-- JS `a || b` on an optional string `a` with string fallback `b`:
yields `a`'s contents when it is a non-empty string, else `b`. -/
def jsOrStr (a : Option String) (b : String) : String :=
  match a with
  | some s => if s = "" then b else s
  | none => b

/-- The response shape of `GET /api/herbs/validate?name=...`. -/
structure ValidateResponse where
  valid : Bool
  english : Option String
  korean : Option String
  name : Option String
deriving DecidableEq, Repr

/-- `data.english || data.name` in `validateHerb` (empty string when both
are missing/empty). -/
def respEnglish (data : ValidateResponse) : String :=
  jsOrStr data.english (jsOrStr data.name "")

/-- A validated `{ english, korean }` pair returned by `validateHerb`. -/
structure HerbPair where
  english : String
  korean : String
deriving DecidableEq, Repr

/-- `validateHerb` (app.js lines 474-489): on a fetch/parse failure or a
`valid:false` response, returns `null` (modelled `none`) with the cache
untouched; on a `valid:true` response, caches the Korean name only when it is
truthy (`if (data.korean) herbKoreanCache[...] = data.korean`), and returns
`{ english: data.english || data.name, korean: data.korean || '' }`. -/
def validateHerb (outcome : Except Unit ValidateResponse) (cache : Cache) :
    Option HerbPair × Cache :=
  match outcome with
  | .error _ => (none, cache)
  | .ok data =>
    if data.valid then
      let korean := jsOrStr data.korean ""
      let cache' := if korean ≠ "" then cacheSet cache (respEnglish data) korean else cache
      (some { english := respEnglish data, korean := korean }, cache')
    else (none, cache)

/-- `getKoreanName` (app.js lines 347-359): returns the cached value when the
key is present (`!== undefined`, so a cached `""` is returned as-is without a
network call); otherwise fetches `/api/herbs/validate`, caches
`data.korean || ''` (always, even when that is `""`), and returns it; on a
fetch/parse failure returns `''` without caching. -/
def getKoreanName (cache : Cache) (outcome : Except Unit ValidateResponse)
    (englishName : String) : String × Cache :=
  match cacheGet cache englishName with
  | some v => (v, cache)
  | none =>
    match outcome with
    | .error _ => ("", cache)
    | .ok data =>
      let v := jsOrStr data.korean ""
      (v, cacheSet cache englishName v)

/-- The cache update performed by the herb-suggestion selection callbacks
(app.js lines 193-197 and 218-223): `korean` is the selected item's
`data-korean` attribute (`null` when the item is not found), and
`if (korean) herbKoreanCache[value] = korean` caches it only when truthy. -/
def cacheFromSelection (cache : Cache) (value : String) (korean : Option String) : Cache :=
  match korean with
  | some k => if k ≠ "" then cacheSet cache value k else cache
  | none => cache

/-! ## Bulk herb adding (app.js lines 152-170 and 426-489)

The paste handler treats text as a bulk paste only when it contains a comma,
splitting on commas, trimming each segment and dropping empties.
`addBulkHerbs` then validates each candidate sequentially, partitioning into
`validHerbs` / `invalidHerbs` / `duplicateHerbs` (the duplicate check reads
`state.prescriptions[prescriptionIndex]`, which is not mutated until the
second loop, hence it is the pre-paste herb list), then adds the valid herbs
as tags, and finally emits the result toasts. -/

/-- JS `String.prototype.trim`: strips leading and trailing whitespace. -/
def jsTrim (s : String) : String :=
  String.mk (((s.data.dropWhile Char.isWhitespace).reverse.dropWhile Char.isWhitespace).reverse)

/-- Whether a paste is treated as bulk: `pastedText.includes(',')`. -/
def isBulkPaste (pastedText : String) : Bool :=
  pastedText.data.contains ','

/-- JS `String.prototype.split(',')` on the underlying characters. -/
def splitComma : List Char → List Char → List (List Char)
  | [], acc => [acc.reverse]
  | c :: rest, acc =>
    if c = ',' then acc.reverse :: splitComma rest []
    else splitComma rest (c :: acc)

/-- `pastedText.split(',').map(h => h.trim()).filter(h => h.length > 0)`. -/
def bulkSplit (pastedText : String) : List String :=
  ((splitComma pastedText.data []).map (fun l => jsTrim (String.mk l))).filter
    (fun h => h.length > 0)

/-- The outcome of one `addBulkHerbs` run. -/
structure BulkResult where
  cache : Cache
  tagState : TagState
  validHerbs : List HerbPair
  invalidHerbs : List String
  duplicateHerbs : List String
  toasts : List Toast
deriving Repr

/-- The classification loop of `addBulkHerbs` (app.js lines 434-448), threading
the cache through each `validateHerb` call.  `initialHerbs` is the value of
`state.prescriptions[prescriptionIndex]` throughout the loop (the pre-paste
herb list: the second loop that mutates it has not run yet). -/
def bulkClassify (env : String → Except Unit ValidateResponse) (initialHerbs : List String) :
    List String → Cache → List HerbPair × List String × List String × Cache
  | [], cache => ([], [], [], cache)
  | herb :: rest, cache =>
    let res := validateHerb (env herb) cache
    let rec0 := bulkClassify env initialHerbs rest res.2
    match res.1 with
    | some pair =>
      if initialHerbs.contains pair.english then
        (rec0.1, rec0.2.1, herb :: rec0.2.2.1, rec0.2.2.2)
      else (pair :: rec0.1, rec0.2.1, rec0.2.2.1, rec0.2.2.2)
    | none => (rec0.1, herb :: rec0.2.1, rec0.2.2.1, rec0.2.2.2)

/-- `addBulkHerbs` (app.js lines 426-472): classify every candidate, add the
valid ones as tags via `addHerbTagInline` (each with its Korean name already
supplied, so no further lookups), then emit a success toast counting
`validHerbs.length`, an error toast listing the invalid names, a warning toast
listing the duplicate names — each only when non-empty — after the initial
info toast. -/
def addBulkHerbs (env : String → Except Unit ValidateResponse) (cache : Cache)
    (s : TagState) (herbs : List String) : BulkResult :=
  let c := bulkClassify env s.herbs herbs cache
  let validHerbs := c.1
  let invalidHerbs := c.2.1
  let duplicateHerbs := c.2.2.1
  let s' := validHerbs.foldl (fun st pair => addHerbTagInline st pair.english) s
  let toasts :=
    [Toast.mk "Validating herbs..." .info]
    ++ (if validHerbs.length > 0 then
          [Toast.mk ("Added " ++ toString validHerbs.length ++ " herb"
            ++ (if validHerbs.length > 1 then "s" else "") ++ " successfully") .success]
        else [])
    ++ (if invalidHerbs.length > 0 then
          [Toast.mk ("Not found in database: " ++ String.intercalate ", " invalidHerbs) .error]
        else [])
    ++ (if duplicateHerbs.length > 0 then
          [Toast.mk ("Already added: " ++ String.intercalate ", " duplicateHerbs) .warning]
        else [])
  { cache := c.2.2.2, tagState := s', validHerbs := validHerbs,
    invalidHerbs := invalidHerbs, duplicateHerbs := duplicateHerbs, toasts := toasts }

/-- A concrete validation service recognizing exactly "Ginseng" and
"Licorice" (with Korean names), rejecting everything else. -/
def demoEnv : String → Except Unit ValidateResponse := fun n =>
  if n = "Ginseng" then .ok (ValidateResponse.mk true (some "Ginseng") (some "Insam") none)
  else if n = "Licorice" then .ok (ValidateResponse.mk true (some "Licorice") (some "Gamcho") none)
  else .ok (ValidateResponse.mk false none none none)

/-! ## Prescription management (app.js lines 495-592)

`state.prescriptions` is a JS object keyed by prescription index; we model it
as an association list with unique keys.  The DOM's `.prescription-card`
elements are modelled by the list of their `data-index` attributes in document
order (`querySelectorAll` order), since `renumberPrescriptions` reads exactly
those. -/

structure RegistryState where
  prescriptions : List (Nat × List String)
  cards : List Nat
  prescriptionCount : Nat
  maxPrescriptions : Nat
deriving DecidableEq, Repr

/-- `state.prescriptions[i]` (`undefined` when absent). -/
def lookupHerbs (s : RegistryState) (i : Nat) : Option (List String) :=
  (s.prescriptions.find? (fun p => p.1 == i)).map (fun p => p.2)

/-- JS object assignment `state.prescriptions[k] = v` (overwrites the key). -/
def objSet (m : List (Nat × List String)) (k : Nat) (v : List String) :
    List (Nat × List String) :=
  (k, v) :: m.filter (fun p => p.1 ≠ k)

/-- The initial state (app.js lines 5-12): two empty prescriptions, count 2,
`maxPrescriptions = 2`. -/
def initState : RegistryState :=
  { prescriptions := [(1, []), (2, [])], cards := [1, 2],
    prescriptionCount := 2, maxPrescriptions := 2 }

/-- `addPrescription` (app.js lines 495-548): warns and does nothing when the
count has reached `maxPrescriptions`; otherwise increments the count, creates
an empty prescription at the new index and appends its card. -/
def addPrescription (s : RegistryState) : RegistryState × List Toast :=
  if s.prescriptionCount ≥ s.maxPrescriptions then
    (s, [Toast.mk "Maximum 3 prescriptions allowed" .warning])
  else
    let index := s.prescriptionCount + 1
    ({ s with prescriptionCount := index,
              prescriptions := objSet s.prescriptions index [],
              cards := s.cards ++ [index] }, [])

/-- `renumberPrescriptions` (app.js lines 564-582): walks the remaining cards
in document order, rebuilding `state.prescriptions` so that the card at
position `i` (0-based) gets index `i+1` and keeps the herb list its old
`data-index` pointed to (`state.prescriptions[oldIndex] || []`); every card's
`data-index` is rewritten to its new index and the count is set to the number
of cards. -/
def renumberPrescriptions (s : RegistryState) : RegistryState :=
  { s with
    prescriptions := s.cards.enum.map (fun ic => (ic.1 + 1, (lookupHerbs s ic.2).getD [])),
    cards := List.range' 1 s.cards.length,
    prescriptionCount := s.cards.length }

/-- `removePrescription(index, element)` (app.js lines 550-562): warns and does
nothing when the count is at most 1; otherwise deletes the prescription entry
at `index`, removes the card element (identified here by its `data-index`
`card`), decrements the count, and renumbers. -/
def removePrescription (index : Nat) (card : Nat) (s : RegistryState) :
    RegistryState × List Toast :=
  if s.prescriptionCount ≤ 1 then
    (s, [Toast.mk "At least one prescription is required" .warning])
  else
    let s₁ : RegistryState :=
      { s with prescriptions := s.prescriptions.filter (fun p => p.1 ≠ index),
               cards := s.cards.erase card,
               prescriptionCount := s.prescriptionCount - 1 }
    (renumberPrescriptions s₁, [])

/-- A user action on the prescription registry: the add button, or a card's
remove button (carrying the captured index and the card it removes). -/
inductive RegOp where
  | add
  | remove (index : Nat) (card : Nat)
deriving DecidableEq, Repr

/-- Run a sequence of add/remove actions (toasts discarded). -/
def runRegOps (ops : List RegOp) (s : RegistryState) : RegistryState :=
  ops.foldl (fun st op =>
    match op with
    | .add => (addPrescription st).1
    | .remove i c => (removePrescription i c st).1) s

/-! ## Form submission (app.js lines 619-652) -/

/-- The outcome of `handleFormSubmit`: a validation failure with its error
toast, or a successful submission carrying the serialized `herbsData` array. -/
inductive SubmitResult where
  | failure (toast : Toast)
  | success (herbsData : List String)
deriving DecidableEq, Repr

/-- `handleFormSubmit` (app.js lines 619-652): rejects an empty/whitespace
disease; walks prescriptions `1..prescriptionCount`, pushing
`herbs.join(', ')` for each non-empty one and tracking `hasHerbs`; rejects
when no prescription had herbs; otherwise submits the collected array. -/
def handleFormSubmit (disease : String) (s : RegistryState) : SubmitResult :=
  if jsTrim disease = "" then
    .failure (Toast.mk "Please enter a disease name" .error)
  else
    let r := (List.range' 1 s.prescriptionCount).foldl
      (fun (acc : List String × Bool) i =>
        let herbs := (lookupHerbs s i).getD []
        if herbs.length > 0 then (acc.1 ++ [String.intercalate ", " herbs], true)
        else acc)
      ([], false)
    if !r.2 then
      .failure (Toast.mk "Please add at least one herb to a prescription" .error)
    else
      .success r.1

/-! ## escapeHtml and highlightMatch (app.js lines 685-707)

`escapeHtml` assigns the text as a DOM text node and reads back `innerHTML`,
which escapes exactly `&`, `<` and `>`.  `highlightMatch` escapes the regex
metacharacters in the query (making the pattern a literal), splits the text
with `text.split(regex)` where the regex is the global case-insensitive literal
query wrapped in a capture group — producing the alternating list
`[gap, match, gap, match, ..., gap]` of leftmost non-overlapping
case-insensitive occurrences — then wraps each part that equals the query
case-insensitively in `<mark class="highlight">` and escapes every part. -/

/-- One character of `escapeHtml`. -/
def escapeHtmlChar (c : Char) : String :=
  if c = '&' then "&amp;"
  else if c = '<' then "&lt;"
  else if c = '>' then "&gt;"
  else String.mk [c]

/-- `escapeHtml` (app.js lines 685-689). -/
def escapeHtml (text : String) : String :=
  String.join (text.data.map escapeHtmlChar)

/-- Case-insensitive prefix test on character lists (the literal pattern with
the `i` flag matching at the head of the remaining text). -/
def ciStartsWith (q s : List Char) : Bool :=
  (q.map Char.toLower).isPrefixOf (s.map Char.toLower)

/-- Leftmost case-insensitive occurrence of `q` in `s`:
`some (gap, matched, rest)` with `s = gap ++ matched ++ rest`, the match
starting at the first possible position; `none` when there is none. -/
def findCI (q : List Char) : List Char → Option (List Char × List Char × List Char)
  | [] => if ciStartsWith q [] then some ([], [], []) else none
  | c :: rest =>
    if ciStartsWith q (c :: rest) then
      some ([], (c :: rest).take q.length, (c :: rest).drop q.length)
    else
      match findCI q rest with
      | some (gap, m, after) => some (c :: gap, m, after)
      | none => none

/-- Fuel-indexed worker for `splitCI`: repeatedly cuts out the leftmost
case-insensitive occurrence.  Each step strictly shrinks the remaining text
(`findCI_after_lt`), so any fuel above the text length is enough; the fuel
only makes the recursion structural. -/
def splitCIAux (q : List Char) : Nat → List Char → List (List Char)
  | 0, s => [s]
  | fuel + 1, s =>
    match findCI q s with
    | none => [s]
    | some (gap, m, after) => gap :: m :: splitCIAux q fuel after

/-- `text.split(regex)` for the global case-insensitive literal pattern `q`
wrapped in a capture group: the alternating list
`[gap₀, match₀, gap₁, match₁, ..., gapₖ]` of leftmost non-overlapping
case-insensitive occurrences of `q` in `s`. -/
def splitCI (q : List Char) (s : List Char) : List (List Char) :=
  if q = [] then [s] else splitCIAux q (s.length + 1) s

/-- `highlightMatch` (app.js lines 691-707): for an empty query just escapes
the text; otherwise splits on the case-insensitive literal query and rebuilds,
wrapping each part equal to the query (case-insensitively) in
`<mark class="highlight">...</mark>` and escaping every part. -/
def highlightMatch (text query : String) : String :=
  if query = "" then escapeHtml text
  else
    String.join ((splitCI query.data text.data).map (fun part =>
      if part.map Char.toLower = query.data.map Char.toLower then
        "<mark class=\"highlight\">" ++ escapeHtml (String.mk part) ++ "</mark>"
      else escapeHtml (String.mk part)))

/-- Specification predicate for the shape of a split: starting from a gap
segment (`expectMatch = false`), gap segments contain no case-insensitive
occurrence of the query and match segments fold (case-insensitively) to the
query, strictly alternating. -/
def AlternatesFrom (lq : List Char) : Bool → List (List Char) → Prop
  | _, [] => True
  | false, part :: rest =>
    ¬ (lq <:+: part.map Char.toLower) ∧ AlternatesFrom lq true rest
  | true, part :: rest =>
    part.map Char.toLower = lq ∧ AlternatesFrom lq false rest

/-! ## Helper lemmas -/

theorem runAdds_append (s : TagState) (l : List String) (n : String) :
    runAdds s (l ++ [n]) = addHerbTagInline (runAdds s l) n := by
  simp [runAdds, List.foldl_append]

theorem runAdds_tags (names : List String) :
    ∀ s : TagState, s.tags = s.herbs → (runAdds s names).tags = (runAdds s names).herbs := by
  induction names with
  | nil => intro s h; exact h
  | cons n rest ih =>
    intro s h
    show (runAdds (addHerbTagInline s n) rest).tags = (runAdds (addHerbTagInline s n) rest).herbs
    apply ih
    unfold addHerbTagInline
    split
    · exact h
    · simp [h]

theorem runAdds_main (names : List String) :
    (runAdds ⟨[], []⟩ names).herbs.Nodup ∧
    (∀ x, x ∈ (runAdds ⟨[], []⟩ names).herbs ↔ x ∈ names) ∧
    (runAdds ⟨[], []⟩ names).herbs.Pairwise
      (fun a b => names.indexOf a < names.indexOf b) := by
  induction names using List.reverseRecOn with
  | nil => simp [runAdds]
  | append_singleton l n ih =>
    obtain ⟨hnd, hmem, hpw⟩ := ih
    rw [runAdds_append]
    by_cases hc : n ∈ (runAdds ⟨[], []⟩ l).herbs
    · have hcb : (runAdds ⟨[], []⟩ l).herbs.contains n = true := by simpa using hc
      have heq : addHerbTagInline (runAdds ⟨[], []⟩ l) n = runAdds ⟨[], []⟩ l := by
        unfold addHerbTagInline; rw [if_pos hcb]
      rw [heq]
      have hnl : n ∈ l := (hmem n).mp hc
      refine ⟨hnd, ?_, ?_⟩
      · intro x
        rw [hmem x]
        simp only [List.mem_append, List.mem_singleton]
        constructor
        · exact Or.inl
        · rintro (hx | rfl)
          · exact hx
          · exact hnl
      · refine hpw.imp_of_mem ?_
        intro a b ha hb hlt
        have ha' : a ∈ l := (hmem a).mp ha
        have hb' : b ∈ l := (hmem b).mp hb
        rwa [List.indexOf_append_of_mem ha', List.indexOf_append_of_mem hb']
    · have hcb : (runAdds ⟨[], []⟩ l).herbs.contains n = false := by
        simp only [Bool.eq_false_iff]
        intro hcontra
        exact hc (by simpa using hcontra)
      have heq : (addHerbTagInline (runAdds ⟨[], []⟩ l) n).herbs
          = (runAdds ⟨[], []⟩ l).herbs ++ [n] := by
        unfold addHerbTagInline; rw [hcb]; simp
      rw [heq]
      have hnl : n ∉ l := fun h => hc ((hmem n).mpr h)
      refine ⟨?_, ?_, ?_⟩
      · rw [List.nodup_append]
        exact ⟨hnd, List.nodup_singleton n, List.disjoint_singleton.mpr hc⟩
      · intro x
        simp only [List.mem_append, List.mem_singleton, hmem x]
      · rw [List.pairwise_append]
        refine ⟨?_, List.pairwise_singleton _ n, ?_⟩
        · refine hpw.imp_of_mem ?_
          intro a b ha hb hlt
          have ha' : a ∈ l := (hmem a).mp ha
          have hb' : b ∈ l := (hmem b).mp hb
          rwa [List.indexOf_append_of_mem ha', List.indexOf_append_of_mem hb']
        · intro a ha b hb
          rw [List.mem_singleton] at hb
          rw [hb]
          have ha' : a ∈ l := (hmem a).mp ha
          rw [List.indexOf_append_of_mem ha', List.indexOf_append_of_not_mem hnl]
          have h1 : List.indexOf a l < l.length := List.indexOf_lt_length.mpr ha'
          have h2 : List.indexOf n [n] = 0 := by simp
          omega

/-- The registry's structural invariant: one card per prescription, count
within `[1, maxPrescriptions]`. -/
def RegInv (s : RegistryState) : Prop :=
  s.cards.length = s.prescriptionCount ∧
  1 ≤ s.prescriptionCount ∧
  s.prescriptionCount ≤ s.maxPrescriptions

theorem addPrescription_inv (s : RegistryState) (h : RegInv s) :
    RegInv (addPrescription s).1 := by
  obtain ⟨hlen, h1, hmax⟩ := h
  unfold addPrescription
  by_cases hge : s.prescriptionCount ≥ s.maxPrescriptions
  · rw [if_pos hge]
    exact ⟨hlen, h1, hmax⟩
  · rw [if_neg hge]
    have hlt : s.prescriptionCount < s.maxPrescriptions := Nat.lt_of_not_le hge
    refine ⟨?_, ?_, ?_⟩
    · show (s.cards ++ [s.prescriptionCount + 1]).length = s.prescriptionCount + 1
      simp [hlen]
    · show 1 ≤ s.prescriptionCount + 1
      omega
    · show s.prescriptionCount + 1 ≤ s.maxPrescriptions
      omega

theorem removePrescription_inv (i c : Nat) (s : RegistryState) (h : RegInv s) :
    RegInv (removePrescription i c s).1 := by
  obtain ⟨hlen, h1, hmax⟩ := h
  unfold removePrescription
  by_cases hle : s.prescriptionCount ≤ 1
  · rw [if_pos hle]
    exact ⟨hlen, h1, hmax⟩
  · rw [if_neg hle]
    have herase_le : (s.cards.erase c).length ≤ s.cards.length :=
      (List.erase_sublist c s.cards).length_le
    have herase_ge : s.cards.length - 1 ≤ (s.cards.erase c).length := by
      by_cases hc : c ∈ s.cards
      · rw [List.length_erase_of_mem hc]
      · rw [List.erase_of_not_mem hc]
        omega
    refine ⟨?_, ?_, ?_⟩
    · simp [renumberPrescriptions, List.length_range']
    · simp only [renumberPrescriptions]
      omega
    · simp only [renumberPrescriptions]
      omega

theorem runRegOps_inv (ops : List RegOp) :
    ∀ s : RegistryState, RegInv s → RegInv (runRegOps ops s) := by
  induction ops with
  | nil => intro s h; exact h
  | cons op rest ih =>
    intro s h
    cases op with
    | add => exact ih _ (addPrescription_inv s h)
    | remove i c => exact ih _ (removePrescription_inv i c s h)

/-! ## Claim theorems -/

/-- C9: `fetchSuggestions` never propagates an error to its caller: a network
or JSON-parse failure (the `.error` outcome) yields the empty list, and a
successful fetch yields the parsed list, so the caller always receives a list
value. -/
theorem fetchSuggestions_never_throws (outcome : Except Unit (List Suggestion)) :
    (∀ e, outcome = .error e → fetchSuggestions outcome = []) ∧
    (∀ l, outcome = .ok l → fetchSuggestions outcome = l) := by
  constructor
  · intro e h; subst h; rfl
  · intro l h; subst h; rfl

theorem fetchSuggestions_never_throws_witness :
    fetchSuggestions (Except.error ()) = [] :=
  (fetchSuggestions_never_throws (Except.error ())).1 () rfl

/-- C10: the herb suggestion list rendered for a prescription is the fetched
list filtered by the prescription's current herb list: a suggestion survives
the filter exactly when it was fetched and its canonical English name is not
already among the selected herbs — so an already-added herb never appears in
that prescription's dropdown, regardless of what the endpoint returned. -/
theorem filterSelectedHerbs_mem (selectedHerbs : List String)
    (suggestions : List Suggestion) (s : Suggestion) :
    s ∈ filterSelectedHerbs selectedHerbs suggestions ↔
      s ∈ suggestions ∧ suggestionEnglish s ∉ selectedHerbs := by
  simp [filterSelectedHerbs, List.mem_filter]

/-- C5: over any sequence of single-herb adds starting from an empty
prescription, the herb list contains each distinct name exactly once
(`Nodup` and the membership equivalence), ordered by first successful add
(pairwise increasing first-occurrence index in the add sequence), with the
rendered tags mirroring it; and an add of an already-present name is a
complete no-op on the state. -/
theorem tagCollection_add_spec :
    (∀ names : List String,
      (runAdds ⟨[], []⟩ names).herbs.Nodup ∧
      (∀ x, x ∈ (runAdds ⟨[], []⟩ names).herbs ↔ x ∈ names) ∧
      (runAdds ⟨[], []⟩ names).herbs.Pairwise
        (fun a b => names.indexOf a < names.indexOf b) ∧
      (runAdds ⟨[], []⟩ names).tags = (runAdds ⟨[], []⟩ names).herbs) ∧
    (∀ (s : TagState) (n : String), s.herbs.contains n → addHerbTagInline s n = s) := by
  constructor
  · intro names
    obtain ⟨h1, h2, h3⟩ := runAdds_main names
    exact ⟨h1, h2, h3, runAdds_tags names ⟨[], []⟩ rfl⟩
  · intro s n h
    unfold addHerbTagInline
    rw [if_pos h]

theorem tagCollection_add_spec_witness :
    addHerbTagInline ⟨["Ginseng"], ["Ginseng"]⟩ "Ginseng" = ⟨["Ginseng"], ["Ginseng"]⟩ :=
  tagCollection_add_spec.2 ⟨["Ginseng"], ["Ginseng"]⟩ "Ginseng" rfl

/-- C8: with the tag-collection invariants (no duplicate names, rendered tags
mirroring the herb list), Backspace on an empty text input removes exactly the
most recently added herb — the resulting state is the original with its last
herb (and only its last herb) dropped — and is a no-op when the prescription
is empty. -/
theorem backspace_removes_last (s : TagState) (hnd : s.herbs.Nodup)
    (ht : s.tags = s.herbs) :
    (s.herbs ≠ [] →
      backspaceOnEmptyInput s = ⟨s.herbs.dropLast, s.herbs.dropLast⟩) ∧
    (s.herbs = [] → backspaceOnEmptyInput s = s) := by
  constructor
  · intro hne
    obtain ⟨front, lastE, hfl⟩ : ∃ front lastE, s.herbs = front ++ [lastE] :=
      ⟨s.herbs.dropLast, s.herbs.getLast hne, (List.dropLast_append_getLast hne).symm⟩
    have hnotmem : lastE ∉ front := by
      have h := hnd
      rw [hfl, List.nodup_append] at h
      exact List.disjoint_singleton.mp h.2.2
    have hfilter : (front ++ [lastE]).filter (fun h => h ≠ lastE) = front := by
      rw [List.filter_append]
      have h1 : front.filter (fun h => h ≠ lastE) = front := by
        rw [List.filter_eq_self]
        intro a ha
        simp only [ne_eq, decide_eq_true_eq]
        exact fun heq => hnotmem (heq ▸ ha)
      have h2 : [lastE].filter (fun h => h ≠ lastE) = [] := by simp
      rw [h1, h2, List.append_nil]
    have herase : (front ++ [lastE]).erase lastE = front := by
      rw [List.erase_append_right _ hnotmem]
      simp
    unfold backspaceOnEmptyInput removeHerbTagInline
    rw [ht, hfl]
    have hlen : (front ++ [lastE]).length > 0 := by simp
    rw [if_pos hlen, List.getLastD_concat, hfilter, herase, List.dropLast_concat]
  · intro he
    unfold backspaceOnEmptyInput
    rw [if_neg (by simp [he])]

theorem validateHerb_fst (o : Except Unit ValidateResponse) (c c' : Cache) :
    (validateHerb o c).1 = (validateHerb o c').1 := by
  cases o with
  | error e => rfl
  | ok data => by_cases h : data.valid <;> simp [validateHerb, h]

theorem bulkClassify_spec (env : String → Except Unit ValidateResponse)
    (initialHerbs : List String) :
    ∀ (names : List String) (cache : Cache),
      (bulkClassify env initialHerbs names cache).1
        = names.filterMap (fun n =>
            match (validateHerb (env n) []).1 with
            | some pair =>
              if initialHerbs.contains pair.english then none else some pair
            | none => none) ∧
      (bulkClassify env initialHerbs names cache).2.1
        = names.filter (fun n => ((validateHerb (env n) []).1).isNone) ∧
      (bulkClassify env initialHerbs names cache).2.2.1
        = names.filter (fun n =>
            match (validateHerb (env n) []).1 with
            | some pair => initialHerbs.contains pair.english
            | none => false) := by
  intro names
  induction names with
  | nil => intro cache; exact ⟨rfl, rfl, rfl⟩
  | cons herb rest ih =>
    intro cache
    obtain ⟨ih1, ih2, ih3⟩ := ih (validateHerb (env herb) cache).2
    have hsame : (validateHerb (env herb) cache).1 = (validateHerb (env herb) []).1 :=
      validateHerb_fst (env herb) cache []
    simp only [bulkClassify, List.filterMap_cons, List.filter_cons, hsame]
    cases hfst : (validateHerb (env herb) []).1 with
    | none => simp [hfst, ih1, ih2, ih3]
    | some pair =>
      by_cases hdup : pair.english ∈ initialHerbs
      · simp [hfst, hdup, ih1, ih2, ih3]
      · simp [hfst, hdup, ih1, ih2, ih3]

theorem bulkClassify_length (env : String → Except Unit ValidateResponse)
    (initialHerbs : List String) :
    ∀ (names : List String) (cache : Cache),
      (bulkClassify env initialHerbs names cache).1.length
        + (bulkClassify env initialHerbs names cache).2.1.length
        + (bulkClassify env initialHerbs names cache).2.2.1.length
        = names.length := by
  intro names
  induction names with
  | nil => intro cache; rfl
  | cons herb rest ih =>
    intro cache
    have h := ih (validateHerb (env herb) cache).2
    simp only [bulkClassify]
    cases hfst : (validateHerb (env herb) cache).1 with
    | none =>
      dsimp only
      simp only [List.length_cons]
      omega
    | some pair =>
      by_cases hdup : initialHerbs.contains pair.english
      · dsimp only
        rw [if_pos hdup]
        simp only [List.length_cons]
        omega
      · dsimp only
        rw [if_neg hdup]
        simp only [List.length_cons]
        omega

/-- C1 counterexample: pasting `"Ginseng, Licorice, Ginseng"` into an empty
prescription with both names recognized adds exactly 2 tags, but reports 0
duplicates (not the claimed 1, because the duplicate check reads the pre-paste
prescription state, which is not updated until after the classification loop)
and the success toast says "Added 3 herbs successfully" — the count of
validated candidates, not the 2 actually added. -/
theorem addBulkHerbs_counterexample :
    isBulkPaste "Ginseng, Licorice, Ginseng" = true ∧
    bulkSplit "Ginseng, Licorice, Ginseng" = ["Ginseng", "Licorice", "Ginseng"] ∧
    (addBulkHerbs demoEnv [] ⟨[], []⟩
        (bulkSplit "Ginseng, Licorice, Ginseng")).tagState.herbs
      = ["Ginseng", "Licorice"] ∧
    (addBulkHerbs demoEnv [] ⟨[], []⟩
        (bulkSplit "Ginseng, Licorice, Ginseng")).duplicateHerbs = [] ∧
    (addBulkHerbs demoEnv [] ⟨[], []⟩
        (bulkSplit "Ginseng, Licorice, Ginseng")).invalidHerbs = [] ∧
    (addBulkHerbs demoEnv [] ⟨[], []⟩
        (bulkSplit "Ginseng, Licorice, Ginseng")).toasts
      = [Toast.mk "Validating herbs..." .info,
         Toast.mk "Added 3 herbs successfully" .success] :=
  ⟨rfl, rfl, rfl, rfl, rfl, rfl⟩

/-- C1 (amended): each candidate of a bulk paste is classified into exactly
one of valid-new / duplicate / invalid, but "duplicate" means "validates and
already present in the prescription **before the paste**": a name repeated
inside the same paste is classified valid-new each time (deduplication happens
only at tag-add time) and the success toast counts the validated candidates,
which can exceed the number of tags actually added.  On
`"Ginseng, Licorice, Ginseng"` into an empty prescription: exactly 2 tags
added, 0 duplicates and 0 invalid reported, success toast counting 3. -/
theorem addBulkHerbs_amended :
    (∀ (env : String → Except Unit ValidateResponse) (cache : Cache) (s : TagState)
        (names : List String),
      (addBulkHerbs env cache s names).validHerbs.length
        + (addBulkHerbs env cache s names).invalidHerbs.length
        + (addBulkHerbs env cache s names).duplicateHerbs.length = names.length ∧
      (addBulkHerbs env cache s names).duplicateHerbs
        = names.filter (fun n =>
            match (validateHerb (env n) []).1 with
            | some pair => s.herbs.contains pair.english
            | none => false) ∧
      (addBulkHerbs env cache s names).invalidHerbs
        = names.filter (fun n => ((validateHerb (env n) []).1).isNone) ∧
      (addBulkHerbs env cache s names).validHerbs
        = names.filterMap (fun n =>
            match (validateHerb (env n) []).1 with
            | some pair =>
              if s.herbs.contains pair.english then none else some pair
            | none => none) ∧
      (addBulkHerbs env cache s names).tagState
        = (addBulkHerbs env cache s names).validHerbs.foldl
            (fun st pair => addHerbTagInline st pair.english) s) ∧
    (addBulkHerbs demoEnv [] ⟨[], []⟩
        (bulkSplit "Ginseng, Licorice, Ginseng")).tagState.herbs
      = ["Ginseng", "Licorice"] ∧
    (addBulkHerbs demoEnv [] ⟨[], []⟩
        (bulkSplit "Ginseng, Licorice, Ginseng")).duplicateHerbs = [] ∧
    (addBulkHerbs demoEnv [] ⟨[], []⟩
        (bulkSplit "Ginseng, Licorice, Ginseng")).invalidHerbs = [] ∧
    (addBulkHerbs demoEnv [] ⟨[], []⟩
        (bulkSplit "Ginseng, Licorice, Ginseng")).validHerbs.length = 3 := by
  refine ⟨?_, rfl, rfl, rfl, rfl⟩
  intro env cache s names
  obtain ⟨h1, h2, h3⟩ := bulkClassify_spec env s.herbs names cache
  exact ⟨bulkClassify_length env s.herbs names cache, h3, h2, h1, rfl⟩

/-- C2 counterexample: a successful validation whose response carries an
empty-string Korean name returns a validated pair, yet leaves the cache with
no entry under the canonical English name (indistinguishable from "never
looked up"); the suggestion-selection path behaves the same. -/
theorem cachePopulation_counterexample :
    (validateHerb (.ok (ValidateResponse.mk true (some "Foo") (some "") none)) []).1
      = some (HerbPair.mk "Foo" "") ∧
    cacheGet (validateHerb
        (.ok (ValidateResponse.mk true (some "Foo") (some "") none)) []).2 "Foo"
      = none ∧
    cacheFromSelection [] "Foo" (some "") = [] :=
  ⟨rfl, rfl, rfl⟩

/-- C2 (amended): `getKoreanName` on a cache miss with a successful fetch
always populates the cache under the looked-up name — even with an empty local
name, making a cached `""` distinguishable from "never looked up"; but
`validateHerb` and the suggestion-selection path populate the cache only when
the resolved local name is non-empty: with an empty local name they leave the
cache untouched. -/
theorem cachePopulation_amended :
    (∀ (cache : Cache) (data : ValidateResponse) (name : String),
      cacheGet cache name = none →
      cacheGet (getKoreanName cache (.ok data) name).2 name
        = some (jsOrStr data.korean "")) ∧
    (∀ (cache : Cache) (data : ValidateResponse),
      data.valid = true → jsOrStr data.korean "" ≠ "" →
      cacheGet (validateHerb (.ok data) cache).2 (respEnglish data)
        = some (jsOrStr data.korean "")) ∧
    (∀ (cache : Cache) (data : ValidateResponse),
      data.valid = true → jsOrStr data.korean "" = "" →
      (validateHerb (.ok data) cache).2 = cache) ∧
    (∀ (cache : Cache) (value k : String), k ≠ "" →
      cacheGet (cacheFromSelection cache value (some k)) value = some k) ∧
    (∀ (cache : Cache) (value : String),
      cacheFromSelection cache value (some "") = cache ∧
      cacheFromSelection cache value none = cache) := by
  refine ⟨?_, ?_, ?_, ?_, ?_⟩
  · intro cache data name h
    unfold getKoreanName
    rw [h]
    simp [cacheGet, cacheSet]
  · intro cache data hvalid hne
    unfold validateHerb
    simp only [hvalid, if_true, if_pos hne]
    simp [cacheGet, cacheSet]
  · intro cache data hvalid he
    unfold validateHerb
    simp only [hvalid, if_true, he]
    simp
  · intro cache value k hk
    unfold cacheFromSelection
    dsimp only
    rw [if_pos hk]
    simp [cacheGet, cacheSet]
  · intro cache value
    constructor
    · unfold cacheFromSelection
      dsimp only
      rw [if_neg (by simp)]
    · rfl

theorem cachePopulation_amended_witness :
    cacheGet (getKoreanName []
        (.ok (ValidateResponse.mk true (some "Foo") (some "") none)) "Foo").2 "Foo"
      = some "" :=
  cachePopulation_amended.1 [] (ValidateResponse.mk true (some "Foo") (some "") none)
    "Foo" rfl

theorem find?_filter_ne (m : List (Nat × List String)) (i j : Nat) (hij : j ≠ i) :
    (m.filter (fun p => p.1 ≠ i)).find? (fun p => p.1 == j)
      = m.find? (fun p => p.1 == j) := by
  induction m with
  | nil => rfl
  | cons kv rest ih =>
    obtain ⟨k, v⟩ := kv
    by_cases hk : k = i
    · subst hk
      rw [List.filter_cons, if_neg (by simp)]
      rw [List.find?_cons_of_neg _ (by simp [Ne.symm hij])]
      exact ih
    · rw [List.filter_cons, if_pos (by simp [hk])]
      by_cases hkj : k = j
      · subst hkj
        rw [List.find?_cons_of_pos _ (by simp), List.find?_cons_of_pos _ (by simp)]
      · rw [List.find?_cons_of_neg _ (by simp [hkj]),
          List.find?_cons_of_neg _ (by simp [hkj])]
        exact ih

theorem find?_renumbered (s : RegistryState) (cards : List Nat) :
    ∀ (off k : Nat), off + 1 ≤ k → k ≤ off + cards.length →
    ((cards.enumFrom off).map
        (fun ic => (ic.1 + 1, (lookupHerbs s ic.2).getD []))).find? (fun p => p.1 == k)
      = some (k, (lookupHerbs s (cards.getD (k - 1 - off) 0)).getD []) := by
  induction cards with
  | nil =>
    intro off k h1 h2
    simp only [List.length_nil, Nat.add_zero] at h2
    omega
  | cons c rest ih =>
    intro off k h1 h2
    rw [List.enumFrom_cons]
    simp only [List.map_cons]
    by_cases hk : off + 1 = k
    · rw [List.find?_cons_of_pos _ (by simp [hk])]
      have h0 : k - 1 - off = 0 := by omega
      rw [h0, List.getD_cons_zero, hk]
    · rw [List.find?_cons_of_neg _ (by simp [hk])]
      have h1' : off + 1 + 1 ≤ k := by omega
      have h2' : k ≤ off + 1 + rest.length := by
        simp only [List.length_cons] at h2
        omega
      rw [ih (off + 1) k h1' h2']
      have hsucc : k - 1 - off = (k - 1 - (off + 1)) + 1 := by omega
      rw [hsucc, List.getD_cons_succ]

theorem lookupHerbs_renumber (s : RegistryState) (k : Nat) (h1 : 1 ≤ k)
    (h2 : k ≤ s.cards.length) :
    lookupHerbs (renumberPrescriptions s) k
      = some ((lookupHerbs s (s.cards.getD (k - 1) 0)).getD []) := by
  have hfind := find?_renumbered s s.cards 0 k (by omega) (by omega)
  unfold lookupHerbs renumberPrescriptions
  rw [show s.cards.enum = s.cards.enumFrom 0 from rfl]
  show (List.find? _ _).map _ = _
  rw [hfind]
  simp [lookupHerbs]

theorem erase_range' (n i : Nat) (h1 : 1 ≤ i) (h2 : i ≤ n) :
    (List.range' 1 n).erase i
      = List.range' 1 (i - 1) ++ List.range' (i + 1) (n - i) := by
  have hsplit : List.range' 1 (i - 1) ++ List.range' i (n - i + 1) = List.range' 1 n := by
    have happ := List.range'_append 1 (i - 1) (n - i + 1) 1
    have ha : 1 + 1 * (i - 1) = i := by omega
    have hb : n - i + 1 + (i - 1) = n := by omega
    rw [ha, hb] at happ
    exact happ
  rw [← hsplit]
  have hnotmem : i ∉ List.range' 1 (i - 1) := by
    intro hmem
    rw [List.mem_range'_1] at hmem
    omega
  rw [List.erase_append_right _ hnotmem]
  have hcons : List.range' i (n - i + 1) = i :: List.range' (i + 1) (n - i) := by
    rw [List.range'_succ]
  rw [hcons, List.erase_cons_head]

theorem getD_erased_range (n i k : Nat) (h1 : 1 ≤ i) (h2 : i ≤ n)
    (hk1 : 1 ≤ k) (hk2 : k ≤ n - 1) :
    (List.range' 1 (i - 1) ++ List.range' (i + 1) (n - i)).getD (k - 1) 0
      = if k < i then k else k + 1 := by
  by_cases hki : k < i
  · rw [if_pos hki]
    have hlt : k - 1 < (List.range' 1 (i - 1)).length := by
      rw [List.length_range']
      omega
    rw [List.getD_append _ _ _ _ hlt, List.getD_eq_getElem _ _ hlt,
      List.getElem_range'_1]
    omega
  · rw [if_neg hki]
    have hge : (List.range' 1 (i - 1)).length ≤ k - 1 := by
      rw [List.length_range']
      omega
    rw [List.getD_append_right _ _ _ _ hge, List.length_range']
    have hlt : k - 1 - (i - 1) < (List.range' (i + 1) (n - i)).length := by
      rw [List.length_range']
      omega
    rw [List.getD_eq_getElem _ _ hlt, List.getElem_range'_1]
    omega

/-- The registry's data invariant used by the removal claim: cards appear in
display order with dataset indices exactly `1..count`, and every card's index
has an entry in `state.prescriptions`. -/
def WellFormed (s : RegistryState) : Prop :=
  s.cards = List.range' 1 s.prescriptionCount ∧
  ∀ j ∈ s.cards, (lookupHerbs s j).isSome

/-- C3: from any well-formed state with at least 2 prescriptions, removing
prescription `i` (an existing index) leaves the surviving cards with
contiguous indices `1..count-1` in their display order, the count decremented,
and every surviving prescription's herb list unchanged: the new index `k`
holds exactly the herb list that index `k` (when `k < i`) or `k+1` (when
`k ≥ i`) held before the removal. -/
theorem removePrescription_renumbers (s : RegistryState) (hwf : WellFormed s)
    (i : Nat) (hi1 : 1 ≤ i) (hi2 : i ≤ s.prescriptionCount)
    (h2 : 2 ≤ s.prescriptionCount) :
    (removePrescription i i s).1.cards = List.range' 1 (s.prescriptionCount - 1) ∧
    (removePrescription i i s).1.prescriptionCount = s.prescriptionCount - 1 ∧
    ∀ k, 1 ≤ k → k ≤ s.prescriptionCount - 1 →
      lookupHerbs (removePrescription i i s).1 k
        = lookupHerbs s (if k < i then k else k + 1) := by
  obtain ⟨hcards, hkeys⟩ := hwf
  have hnotle : ¬ s.prescriptionCount ≤ 1 := by omega
  have herase : s.cards.erase i
      = List.range' 1 (i - 1) ++ List.range' (i + 1) (s.prescriptionCount - i) := by
    rw [hcards]
    exact erase_range' s.prescriptionCount i hi1 hi2
  have herase_len : (s.cards.erase i).length = s.prescriptionCount - 1 := by
    rw [herase]
    simp only [List.length_append, List.length_range']
    omega
  unfold removePrescription
  rw [if_neg hnotle]
  refine ⟨?_, ?_, ?_⟩
  · show List.range' 1 (s.cards.erase i).length = _
    rw [herase_len]
  · show (s.cards.erase i).length = _
    exact herase_len
  · intro k hk1 hk2
    have hlook := lookupHerbs_renumber
      { s with prescriptions := s.prescriptions.filter (fun p => p.1 ≠ i),
               cards := s.cards.erase i,
               prescriptionCount := s.prescriptionCount - 1 }
      k hk1 (by simpa [herase_len] using hk2)
    rw [hlook]
    have hgetD : (s.cards.erase i).getD (k - 1) 0 = if k < i then k else k + 1 := by
      rw [herase]
      exact getD_erased_range s.prescriptionCount i k hi1 hi2 hk1 hk2
    rw [hgetD]
    have hold_ne : (if k < i then k else k + 1) ≠ i := by
      by_cases hki : k < i <;> simp [hki] <;> omega
    have hfilter : lookupHerbs
        { s with prescriptions := s.prescriptions.filter (fun p => p.1 ≠ i),
                 cards := s.cards.erase i,
                 prescriptionCount := s.prescriptionCount - 1 }
        (if k < i then k else k + 1) = lookupHerbs s (if k < i then k else k + 1) := by
      unfold lookupHerbs
      rw [find?_filter_ne s.prescriptions i (if k < i then k else k + 1) hold_ne]
    rw [hfilter]
    have hmem : (if k < i then k else k + 1) ∈ s.cards := by
      rw [hcards, List.mem_range'_1]
      by_cases hki : k < i <;> simp [hki] <;> omega
    have hsome := hkeys _ hmem
    obtain ⟨v, hv⟩ := Option.isSome_iff_exists.mp hsome
    rw [hv]
    rfl

theorem removePrescription_renumbers_witness :
    WellFormed (RegistryState.mk [(1, ["Ginseng"]), (2, ["Licorice"])] [1, 2] 2 2) ∧
    (removePrescription 1 1
        (RegistryState.mk [(1, ["Ginseng"]), (2, ["Licorice"])] [1, 2] 2 2)).1.cards
      = List.range' 1 1 ∧
    lookupHerbs (removePrescription 1 1
        (RegistryState.mk [(1, ["Ginseng"]), (2, ["Licorice"])] [1, 2] 2 2)).1 1
      = some ["Licorice"] := by
  have hwf : WellFormed (RegistryState.mk [(1, ["Ginseng"]), (2, ["Licorice"])] [1, 2] 2 2) := by
    constructor
    · decide
    · decide
  have h := removePrescription_renumbers
    (RegistryState.mk [(1, ["Ginseng"]), (2, ["Licorice"])] [1, 2] 2 2)
    hwf 1 (by decide) (by decide) (by decide)
  refine ⟨hwf, h.1, ?_⟩
  have h3 := h.2.2 1 (by decide) (by decide)
  rw [h3]
  decide

/-- C4: `addPrescription` at the maximum count is a complete no-op on the
state (count and every herb list unchanged) that emits a warning toast;
`removePrescription` at count 1 likewise; and consequently, starting from the
initial state, every sequence of add/remove operations keeps the prescription
count within `[1, maxPrescriptions]`. -/
theorem prescriptionBounds_spec :
    (∀ s : RegistryState, s.prescriptionCount ≥ s.maxPrescriptions →
      addPrescription s = (s, [Toast.mk "Maximum 3 prescriptions allowed" .warning])) ∧
    (∀ (s : RegistryState) (i c : Nat), s.prescriptionCount = 1 →
      removePrescription i c s
        = (s, [Toast.mk "At least one prescription is required" .warning])) ∧
    (∀ ops : List RegOp,
      1 ≤ (runRegOps ops initState).prescriptionCount ∧
      (runRegOps ops initState).prescriptionCount
        ≤ (runRegOps ops initState).maxPrescriptions) := by
  refine ⟨?_, ?_, ?_⟩
  · intro s h
    unfold addPrescription
    rw [if_pos h]
  · intro s i c h
    unfold removePrescription
    rw [if_pos (by omega)]
  · intro ops
    have h := runRegOps_inv ops initState ⟨rfl, by decide, by decide⟩
    exact ⟨h.2.1, h.2.2⟩

theorem prescriptionBounds_spec_witness :
    initState.prescriptionCount ≥ initState.maxPrescriptions ∧
    addPrescription initState
      = (initState, [Toast.mk "Maximum 3 prescriptions allowed" .warning]) ∧
    removePrescription 1 1 (RegistryState.mk [(1, [])] [1] 1 2)
      = (RegistryState.mk [(1, [])] [1] 1 2,
         [Toast.mk "At least one prescription is required" .warning]) :=
  ⟨by decide,
   prescriptionBounds_spec.1 initState (by decide),
   prescriptionBounds_spec.2.1 _ 1 1 rfl⟩

theorem submitFold_spec (s : RegistryState) (idxs : List Nat) (acc : List String × Bool) :
    idxs.foldl
      (fun (acc : List String × Bool) i =>
        let herbs := (lookupHerbs s i).getD []
        if herbs.length > 0 then (acc.1 ++ [String.intercalate ", " herbs], true)
        else acc) acc
    = (acc.1 ++ ((idxs.map (fun i => (lookupHerbs s i).getD [])).filter
          (fun h => h.length > 0)).map (String.intercalate ", "),
       acc.2 || idxs.any (fun i => ((lookupHerbs s i).getD []).length > 0)) := by
  induction idxs generalizing acc with
  | nil => simp
  | cons i rest ih =>
    simp only [List.foldl_cons, List.map_cons, List.any_cons]
    by_cases h : ((lookupHerbs s i).getD []).length > 0
    · rw [if_pos h, ih]
      simp [List.filter_cons, h]
    · rw [if_neg h, ih]
      simp [List.filter_cons, h]

/-- C6: `handleFormSubmit` fails with the disease-name error whenever the
disease field is empty or whitespace-only (regardless of herb content); with a
disease set and every prescription in range empty it fails with the
add-at-least-one-herb error; otherwise it succeeds, serializing exactly the
non-empty prescriptions in index order as comma-joined strings (empty
prescriptions are skipped, never emitted as empty strings). -/
theorem handleFormSubmit_spec (disease : String) (s : RegistryState) :
    (jsTrim disease = "" →
      handleFormSubmit disease s
        = .failure (Toast.mk "Please enter a disease name" .error)) ∧
    (jsTrim disease ≠ "" →
      (∀ i ∈ List.range' 1 s.prescriptionCount, (lookupHerbs s i).getD [] = []) →
      handleFormSubmit disease s
        = .failure (Toast.mk "Please add at least one herb to a prescription" .error)) ∧
    (jsTrim disease ≠ "" →
      (∃ i ∈ List.range' 1 s.prescriptionCount, (lookupHerbs s i).getD [] ≠ []) →
      handleFormSubmit disease s
        = .success ((((List.range' 1 s.prescriptionCount).map
            (fun i => (lookupHerbs s i).getD [])).filter
              (fun h => h.length > 0)).map (String.intercalate ", "))) := by
  refine ⟨?_, ?_, ?_⟩
  · intro h
    unfold handleFormSubmit
    rw [if_pos h]
  · intro h hall
    unfold handleFormSubmit
    rw [if_neg h, submitFold_spec]
    have hany : (List.range' 1 s.prescriptionCount).any
        (fun i => ((lookupHerbs s i).getD []).length > 0) = false := by
      simp only [List.any_eq_false, decide_eq_true_eq]
      intro i hi
      rw [hall i hi]
      simp
    rw [hany]
    simp
  · intro h hex
    unfold handleFormSubmit
    rw [if_neg h, submitFold_spec]
    have hany : (List.range' 1 s.prescriptionCount).any
        (fun i => ((lookupHerbs s i).getD []).length > 0) = true := by
      simp only [List.any_eq_true, decide_eq_true_eq]
      obtain ⟨i, hi, hne⟩ := hex
      exact ⟨i, hi, by simpa [List.length_pos] using hne⟩
    rw [hany]
    simp

theorem handleFormSubmit_spec_witness :
    handleFormSubmit "Flu"
        { prescriptions := [(1, []), (2, ["Ginseng"])], cards := [1, 2],
          prescriptionCount := 2, maxPrescriptions := 2 }
      = SubmitResult.success ["Ginseng"] := by
  have h := (handleFormSubmit_spec "Flu"
    { prescriptions := [(1, []), (2, ["Ginseng"])], cards := [1, 2],
      prescriptionCount := 2, maxPrescriptions := 2 }).2.2
    (by decide) ⟨2, by decide, by decide⟩
  exact h.trans (by decide)

theorem backspace_removes_last_witness :
    (["Ginseng", "Licorice"] : List String) ≠ [] ∧
    backspaceOnEmptyInput ⟨["Ginseng", "Licorice"], ["Ginseng", "Licorice"]⟩
      = ⟨["Ginseng"], ["Ginseng"]⟩ := by
  refine ⟨by decide, ?_⟩
  have h := (backspace_removes_last ⟨["Ginseng", "Licorice"], ["Ginseng", "Licorice"]⟩
    (by decide) rfl).1 (by decide)
  simpa using h

/-! ## Lemmas about the case-insensitive split -/

theorem findCI_append (q : List Char) :
    ∀ s gap m after, findCI q s = some (gap, m, after) → gap ++ m ++ after = s := by
  intro s
  induction s with
  | nil =>
    intro gap m after h
    simp only [findCI] at h
    split at h
    · simp_all
    · exact absurd h (by simp)
  | cons c rest ih =>
    intro gap m after h
    simp only [findCI] at h
    split at h
    · simp only [Option.some.injEq, Prod.mk.injEq] at h
      obtain ⟨h1, h2, h3⟩ := h
      subst h1 h2 h3
      simp
    · cases hf : findCI q rest with
      | none => simp [hf] at h
      | some triple =>
        obtain ⟨gap', m', after'⟩ := triple
        rw [hf] at h
        simp only [Option.some.injEq, Prod.mk.injEq] at h
        obtain ⟨h1, h2, h3⟩ := h
        subst h1 h2 h3
        simpa using congrArg (c :: ·) (ih gap' m' after' hf)

theorem findCI_matched_length (q : List Char) (hq : q ≠ []) :
    ∀ s gap m after, findCI q s = some (gap, m, after) → m ≠ [] := by
  intro s
  induction s with
  | nil =>
    intro gap m after h
    simp only [findCI] at h
    split at h
    · rename_i hpre
      simp only [ciStartsWith, List.map_nil, List.isPrefixOf] at hpre
      cases q with
      | nil => exact absurd rfl hq
      | cons a q' => simp [List.isPrefixOf] at hpre
    · exact absurd h (by simp)
  | cons c rest ih =>
    intro gap m after h
    simp only [findCI] at h
    split at h
    · simp only [Option.some.injEq, Prod.mk.injEq] at h
      obtain ⟨_, h2, _⟩ := h
      subst h2
      cases q with
      | nil => exact absurd rfl hq
      | cons a q' => simp
    · cases hf : findCI q rest with
      | none => simp [hf] at h
      | some triple =>
        obtain ⟨gap', m', after'⟩ := triple
        rw [hf] at h
        simp only [Option.some.injEq, Prod.mk.injEq] at h
        obtain ⟨_, h2, _⟩ := h
        subst h2
        exact ih gap' m' after' hf

theorem findCI_after_lt (q : List Char) (hq : q ≠ []) (s gap m after : List Char)
    (h : findCI q s = some (gap, m, after)) : after.length < s.length := by
  have hsplit := findCI_append q s gap m after h
  have hm := findCI_matched_length q hq s gap m after h
  have hlen : s.length = gap.length + m.length + after.length := by
    rw [← hsplit]
    simp [List.length_append]
    omega
  have hpos : 0 < m.length := List.length_pos.mpr hm
  omega

theorem ciStartsWith_iff (q s : List Char) :
    ciStartsWith q s = true ↔ q.map Char.toLower <+: s.map Char.toLower := by
  rw [ciStartsWith, List.isPrefixOf_iff_prefix]

theorem findCI_none_free (q : List Char) :
    ∀ s, findCI q s = none → ¬ (q.map Char.toLower <:+: s.map Char.toLower) := by
  intro s
  induction s with
  | nil =>
    intro h hinf
    rw [List.map_nil, List.infix_nil] at hinf
    have hq : q = [] := List.map_eq_nil_iff.mp hinf
    subst hq
    simp [findCI, ciStartsWith] at h
  | cons c rest ih =>
    intro h hinf
    simp only [findCI] at h
    split at h
    · exact absurd h (by simp)
    · rename_i hpre
      have hrest : findCI q rest = none := by
        cases hf : findCI q rest with
        | none => rfl
        | some t =>
          obtain ⟨g, m, a⟩ := t
          rw [hf] at h
          simp at h
      rw [List.map_cons] at hinf
      rcases List.infix_cons_iff.mp hinf with hp | hi
      · exact hpre ((ciStartsWith_iff q (c :: rest)).mpr (by simpa using hp))
      · exact ih hrest hi

theorem findCI_gap_free (q : List Char) (hq : q ≠ []) :
    ∀ s gap m after, findCI q s = some (gap, m, after) →
      ¬ (q.map Char.toLower <:+: gap.map Char.toLower) := by
  intro s
  induction s with
  | nil =>
    intro gap m after h hinf
    simp only [findCI] at h
    split at h
    · rename_i hpre
      rw [ciStartsWith_iff] at hpre
      simp only [List.map_nil, List.prefix_nil] at hpre
      exact hq (List.map_eq_nil_iff.mp hpre)
    · exact absurd h (by simp)
  | cons c rest ih =>
    intro gap m after h hinf
    simp only [findCI] at h
    split at h
    · simp only [Option.some.injEq, Prod.mk.injEq] at h
      obtain ⟨hg, hm, ha⟩ := h
      subst hg
      rw [List.map_nil, List.infix_nil] at hinf
      exact hq (List.map_eq_nil_iff.mp hinf)
    · rename_i hpre
      cases hf : findCI q rest with
      | none =>
        rw [hf] at h
        simp at h
      | some t =>
        obtain ⟨g, m', a⟩ := t
        rw [hf] at h
        simp only [Option.some.injEq, Prod.mk.injEq] at h
        obtain ⟨hg, hm, ha⟩ := h
        subst hg
        rw [List.map_cons] at hinf
        rcases List.infix_cons_iff.mp hinf with hp | hi
        · have hsplit : g ++ m' ++ a = rest := findCI_append q rest g m' a hf
          have hgp : g <+: rest := ⟨m' ++ a, by rw [← List.append_assoc, hsplit]⟩
          have hgpre : (c :: g).map Char.toLower <+: (c :: rest).map Char.toLower := by
            simp only [List.map_cons]
            exact List.cons_prefix_cons.mpr ⟨rfl, hgp.map Char.toLower⟩
          have hstart : ciStartsWith q (c :: rest) = true := by
            rw [ciStartsWith_iff]
            exact List.IsPrefix.trans (by simpa using hp) hgpre
          exact hpre hstart
        · exact ih g m' a hf hi

theorem findCI_matched_toLower (q : List Char) :
    ∀ s gap m after, findCI q s = some (gap, m, after) →
      m.map Char.toLower = q.map Char.toLower := by
  intro s
  induction s with
  | nil =>
    intro gap m after h
    simp only [findCI] at h
    split at h
    · rename_i hpre
      rw [ciStartsWith_iff] at hpre
      simp only [List.map_nil, List.prefix_nil] at hpre
      simp only [Option.some.injEq, Prod.mk.injEq] at h
      obtain ⟨_, hm, _⟩ := h
      subst hm
      simp [hpre]
    · exact absurd h (by simp)
  | cons c rest ih =>
    intro gap m after h
    simp only [findCI] at h
    split at h
    · rename_i hpre
      rw [ciStartsWith_iff] at hpre
      simp only [Option.some.injEq, Prod.mk.injEq] at h
      obtain ⟨_, hm, _⟩ := h
      subst hm
      rw [List.map_take]
      have htake := List.prefix_iff_eq_take.mp hpre
      rw [List.length_map] at htake
      exact htake.symm
    · cases hf : findCI q rest with
      | none =>
        rw [hf] at h
        simp at h
      | some t =>
        obtain ⟨g, m', a⟩ := t
        rw [hf] at h
        simp only [Option.some.injEq, Prod.mk.injEq] at h
        obtain ⟨_, hm, _⟩ := h
        subst hm
        exact ih g m' a hf

theorem splitCIAux_join (q : List Char) (hq : q ≠ []) :
    ∀ (fuel : Nat) (s : List Char), s.length < fuel →
      (splitCIAux q fuel s).flatten = s := by
  intro fuel
  induction fuel with
  | zero => intro s hs; exact absurd hs (by omega)
  | succ fuel ih =>
    intro s hs
    simp only [splitCIAux]
    cases hf : findCI q s with
    | none => simp
    | some t =>
      obtain ⟨gap, m, after⟩ := t
      have hlt := findCI_after_lt q hq s gap m after hf
      have hsplit := findCI_append q s gap m after hf
      simp only [List.flatten_cons]
      rw [ih after (by omega), ← List.append_assoc, hsplit]

theorem splitCIAux_alternates (q : List Char) (hq : q ≠ []) :
    ∀ (fuel : Nat) (s : List Char), s.length < fuel →
      AlternatesFrom (q.map Char.toLower) false (splitCIAux q fuel s) := by
  intro fuel
  induction fuel with
  | zero => intro s hs; exact absurd hs (by omega)
  | succ fuel ih =>
    intro s hs
    simp only [splitCIAux]
    cases hf : findCI q s with
    | none => exact ⟨findCI_none_free q s hf, trivial⟩
    | some t =>
      obtain ⟨gap, m, after⟩ := t
      have hlt := findCI_after_lt q hq s gap m after hf
      exact ⟨findCI_gap_free q hq s gap m after hf,
             findCI_matched_toLower q s gap m after hf,
             ih after (by omega)⟩

/-- C7: for every text and non-empty query, `highlightMatch`'s split of the
text is a partition (the segments concatenate back to the text) that strictly
alternates between gap segments containing no case-insensitive occurrence of
the literal query and match segments equal (case-insensitively) to the query —
so the segments wrapped in the highlight marker (those testing CI-equal to the
query) are exactly the match segments, and every segment is HTML-escaped; in
particular `highlightMatch "Ginseng Root" "gin"` wraps exactly `"Gin"` and
leaves the rest escaped and unmarked. -/
theorem highlightMatch_spec :
    (∀ (q s : List Char), q ≠ [] → (splitCI q s).flatten = s) ∧
    (∀ (q s : List Char), q ≠ [] →
      AlternatesFrom (q.map Char.toLower) false (splitCI q s)) ∧
    highlightMatch "Ginseng Root" "gin"
      = "<mark class=\"highlight\">Gin</mark>seng Root" := by
  refine ⟨?_, ?_, rfl⟩
  · intro q s hq
    unfold splitCI
    rw [if_neg hq]
    exact splitCIAux_join q hq (s.length + 1) s (by omega)
  · intro q s hq
    unfold splitCI
    rw [if_neg hq]
    exact splitCIAux_alternates q hq (s.length + 1) s (by omega)

theorem highlightMatch_spec_witness :
    ("gin".data ≠ [] ∧
      (splitCI "gin".data "Ginseng Root".data).flatten = "Ginseng Root".data) ∧
    AlternatesFrom ("gin".data.map Char.toLower) false
      (splitCI "gin".data "Ginseng Root".data) :=
  ⟨⟨by decide, highlightMatch_spec.1 "gin".data "Ginseng Root".data (by decide)⟩,
   highlightMatch_spec.2.1 "gin".data "Ginseng Root".data (by decide)⟩

end GeneRx
